import Mathlib

/-!
Verification of the metadata-extraction core of the PDF-Extractor-API
repository, a shallow embedding of `src/extractors.py`.

Python strings are modelled as `List Char` (`Str`); the ASCII fragments of
the character classes `\d`, `\s`, `[A-Z]`, `[a-z]` and of `str.lower` are
used, which covers every character the heuristics inspect.  All regular
expressions of the source are hand-compiled to deterministic matchers;
each one is noted next to its definition.  Bounded scans are realised with
explicit fuel equal to the scan bound or to the string length, so every
definition is a computable structural recursion.
-/

namespace PDFExtractor

/-- Python strings are modelled as lists of characters. -/
abbrev Str := List Char

/-- Python whitespace class `\s` (ASCII fragment): space, tab, newline,
carriage return, vertical tab, form feed. -/
def isPySpace (c : Char) : Bool :=
  c = ' ' || c = '\t' || c = '\n' || c = '\x0d' || c = '\x0b' || c = '\x0c'

/-- Regex class `\d` (ASCII fragment). -/
def isDigitChar (c : Char) : Bool :=
  '0' ≤ c && c ≤ '9'

/-- Regex class `[A-Z]`. -/
def isUpper (c : Char) : Bool :=
  'A' ≤ c && c ≤ 'Z'

/-- Regex class `[a-z]`. -/
def isLower (c : Char) : Bool :=
  'a' ≤ c && c ≤ 'z'

/-- Superscript glyphs of the source's character class `[¹²³⁴⁵⁶⁷⁸⁹]`. -/
def isSupDigit (c : Char) : Bool :=
  c = '¹' || c = '²' || c = '³' || c = '⁴' || c = '⁵' ||
  c = '⁶' || c = '⁷' || c = '⁸' || c = '⁹'

/-- Python `str.lower` (ASCII fragment), applied characterwise. -/
def pyLower (l : Str) : Str :=
  l.map Char.toLower

/-- Python `str.strip()`: drop leading and trailing whitespace. -/
def pyStrip (l : Str) : Str :=
  ((l.dropWhile isPySpace).reverse.dropWhile isPySpace).reverse

/-- Python `str.rstrip()` with no argument: drop trailing whitespace. -/
def pyRstripWs (l : Str) : Str :=
  (l.reverse.dropWhile isPySpace).reverse

/-- Python `str.rstrip(cs)`: drop trailing characters belonging to `cs`. -/
def pyRstripChars (cs : List Char) (l : Str) : Str :=
  (l.reverse.dropWhile (fun c => cs.contains c)).reverse

/-- Split a string at every character satisfying `p`, keeping empty pieces,
as Python `str.split(sep)` does for a one-character separator. -/
def splitWhen (p : Char → Bool) : Str → List Str
  | [] => [[]]
  | c :: rest =>
    match splitWhen p rest with
    | [] => [[]]
    | q :: qs => if p c then [] :: q :: qs else (c :: q) :: qs

/-- Python `str.split()` with no argument: whitespace-run split, empty
pieces discarded. -/
def pyWords (l : Str) : List Str :=
  (splitWhen isPySpace l).filter (fun w => !w.isEmpty)

/-- Word count `len(k.split())` used by the keyword filter. -/
def pyWordCount (l : Str) : Nat :=
  (pyWords l).length

/-- Substring containment, Python's `pat in l`. -/
def containsSub (l pat : Str) : Bool :=
  l.tails.any (fun s => pat.isPrefixOf s)

/-- Containment of any of several lowercase markers in the lowercased line,
the source's `any(word in line.lower() for word in ws)`. -/
def containsAnySub (l : Str) (pats : List Str) : Bool :=
  pats.any (fun p => containsSub l p)

/-- Python `sep.join(xs)`. -/
def joinWith (sep : Str) : List Str → Str
  | [] => []
  | [x] => x
  | x :: y :: rest => x ++ sep ++ joinWith sep (y :: rest)

/-- One step of Python `str.replace(pat, rep)` with explicit fuel (the fuel
is instantiated with the string length, which each step strictly consumes,
so the zero-fuel fallback is never reached on the actual argument). -/
def pyReplaceAux (pat rep : Str) : Nat → Str → Str
  | _, [] => []
  | 0, l => l
  | fuel + 1, c :: rest =>
    if pat.isPrefixOf (c :: rest) && !pat.isEmpty then
      rep ++ pyReplaceAux pat rep fuel (rest.drop (pat.length - 1))
    else
      c :: pyReplaceAux pat rep fuel rest

/-- Python `l.replace(pat, rep)` for a non-empty pattern. -/
def pyReplace (l pat rep : Str) : Str :=
  pyReplaceAux pat rep l.length l

/-- Auxiliary for `re.sub(r'\s+', ' ', l)` with fuel. -/
def collapseWsAux : Nat → Str → Str
  | _, [] => []
  | 0, l => l
  | fuel + 1, c :: rest =>
    if isPySpace c then ' ' :: collapseWsAux fuel (rest.dropWhile isPySpace)
    else c :: collapseWsAux fuel rest

/-- The source's `re.sub(r'\s+', ' ', l)`: collapse every whitespace run to
a single space. -/
def collapseWs (l : Str) : Str :=
  collapseWsAux l.length l

/-- Case-insensitive literal matcher: consume the lowercase pattern `pat`
from the front of `l`, returning the remainder on success. -/
def eatCI : Str → Str → Option Str
  | [], l => some l
  | _ :: _, [] => none
  | p :: ps, c :: cs => if Char.toLower c = p then eatCI ps cs else none

/-- The source's `re.match(r'^[\d\s]+$', line)`: a non-empty line made only
of digits and whitespace. -/
def reOnlyDigitsSpaces (l : Str) : Bool :=
  !l.isEmpty && l.all (fun c => isDigitChar c || isPySpace c)

/-- Consume one or more whitespace characters (`\s+`). -/
def eatWs1 : Str → Option Str
  | c :: rest => if isPySpace c then some (rest.dropWhile isPySpace) else none
  | [] => none

/-- Consume one or more digits (`\d+`). -/
def eatDigits1 : Str → Option Str
  | c :: rest => if isDigitChar c then some (rest.dropWhile isDigitChar) else none
  | [] => none

/-- The source's `re.match(r'^Page\s+\d+', line, re.IGNORECASE)`. -/
def rePageNum (l : Str) : Bool :=
  (((eatCI "page".data l).bind eatWs1).bind eatDigits1).isSome

/-- Author-signature pattern `[A-Z][a-z]+\s*\d+\s*,\s*[A-Z][a-z]+` anchored
at the current position.  Maximal munch is complete here because the
character classes on each side of every `*` and `+` are disjoint. -/
def sigMatchAt : Str → Bool
  | c :: d :: rest =>
    isUpper c && isLower d &&
      (match (rest.dropWhile isLower).dropWhile isPySpace with
       | e :: rest2 =>
         isDigitChar e &&
           (match (rest2.dropWhile isDigitChar).dropWhile isPySpace with
            | ',' :: rest3 =>
              (match rest3.dropWhile isPySpace with
               | f :: g :: _ => isUpper f && isLower g
               | _ => false)
            | _ => false)
       | [] => false)
  | _ => false

/-- The source's `re.search` of the author-signature pattern: a match at
some position of the line. -/
def sigSearch (l : Str) : Bool :=
  l.tails.any sigMatchAt

/-- Institutional skip markers of `_extract_title`. -/
def skipWords : List Str :=
  ["universitas", "fakultas", "jurusan", "program studi", "issn", "vol.",
   "volume", "jurnal", "email", "@", "doi:", "http://", "https://"].map String.data

/-- Narrative connector words that veto an author-signature line. -/
def narrativeWords : List Str :=
  ["pada", "tahun", "oleh", "dengan", "yang", "abstrak"].map String.data

/-- Affiliation markers absorbed after an author line. -/
def affilWords : List Str :=
  ["universitas", "fakultas", "manajemen", "@"].map String.data

/-- Any skip marker occurs in the lowercased line. -/
def skipWordsHit (l : Str) : Bool :=
  containsAnySub (pyLower l) skipWords

/-- Any narrative connector occurs in the lowercased line. -/
def narrativeHit (l : Str) : Bool :=
  containsAnySub (pyLower l) narrativeWords

/-- Any affiliation marker occurs in the lowercased line. -/
def affilHit (l : Str) : Bool :=
  containsAnySub (pyLower l) affilWords

/-- An abstract-header token occurs in the lowercased line, the source's
`'abstrak' in line.lower() or 'abstract' in line.lower()`. -/
def abstractWordHit (l : Str) : Bool :=
  containsSub (pyLower l) "abstrak".data || containsSub (pyLower l) "abstract".data

/-- Python `str.isdigit()` on a line: non-empty and only digit characters;
Python's notion includes the superscript digit glyphs. -/
def pyIsDigit (l : Str) : Bool :=
  !l.isEmpty && l.all (fun c => isDigitChar c || isSupDigit c || c = '⁰')

/-- The source's `re.match(r'^\d{1,3}$', line)`. -/
def reDigits1to3 (l : Str) : Bool :=
  !l.isEmpty && l.length ≤ 3 && l.all isDigitChar

/-- The source's `re.match(r'^\d{4}$', line)`. -/
def reDigits4 (l : Str) : Bool :=
  l.length = 4 && l.all isDigitChar

/-- The source's `re.match(r'^[A-Z][a-z]+\s+\d{4}$', line)`. -/
def reMonthYear : Str → Bool
  | c :: d :: rest =>
    isUpper c && isLower d &&
      (match rest.dropWhile isLower with
       | e :: rest2 =>
         isPySpace e &&
           (let r := rest2.dropWhile isPySpace
            decide (r.length = 4) && r.all isDigitChar)
       | [] => false)
  | _ => false

/-- Tail `(?:\s+[A-Z][a-z]*)*$` of the Title-Case name-shape regex, with
fuel (instantiated with the remaining length, which every step strictly
consumes). -/
def nameShapeTailAux : Nat → Str → Bool
  | _, [] => true
  | 0, _ :: _ => false
  | fuel + 1, c :: rest =>
    isPySpace c &&
      (match rest.dropWhile isPySpace with
       | d :: rest2 => isUpper d && nameShapeTailAux fuel (rest2.dropWhile isLower)
       | [] => false)

/-- The source's `re.match(r'^[A-Z][a-z]+(?:\s+[A-Z][a-z]*)*$', part)`. -/
def nameShape : Str → Bool
  | c :: d :: rest => isUpper c && isLower d && nameShapeTailAux rest.length (rest.dropWhile isLower)
  | _ => false

/-- The source's `re.match(r'^(D4|S1|S2|S3|Manajemen|Fakultas)', line)`. -/
def degreePrefix (l : Str) : Bool :=
  (["D4", "S1", "S2", "S3", "Manajemen", "Fakultas"].map String.data).any
    (fun p => p.isPrefixOf l)

/-- The source's `re.match(r'^[A-Z][a-z]+', line)` of the fallback author
scan. -/
def startsUpperLower : Str → Bool
  | c :: d :: _ => isUpper c && isLower d
  | _ => false

/-- Greedy tail `(?:\s+[A-Z][a-z]+)*` of a found name span, returning the
consumed characters and the remainder; fuel as above. -/
def spanTailAux : Nat → Str → Str × Str
  | 0, l => ([], l)
  | fuel + 1, l =>
    match l.dropWhile isPySpace with
    | c :: d :: rest =>
      if l.takeWhile isPySpace ≠ [] && isUpper c && isLower d then
        let lw := rest.takeWhile isLower
        let r2 := rest.dropWhile isLower
        let p := spanTailAux fuel r2
        (l.takeWhile isPySpace ++ c :: d :: (lw ++ p.1), p.2)
      else ([], l)
    | _ => ([], l)

/-- Match one span of `([A-Z][a-z]+(?:\s+[A-Z][a-z]+)*)` at the current
position, as `re.findall` attempts at each scan position. -/
def spanAt : Str → Option (Str × Str)
  | c :: d :: rest =>
    if isUpper c && isLower d then
      let lw := rest.takeWhile isLower
      let r := rest.dropWhile isLower
      let p := spanTailAux r.length r
      some (c :: d :: (lw ++ p.1), p.2)
    else none
  | _ => none

/-- The source's `re.findall(r'([A-Z][a-z]+(?:\s+[A-Z][a-z]+)*)', line)`,
with fuel (a span consumes at least two characters, so fuel equal to the
line length is always sufficient). -/
def findSpansAux : Nat → Str → List Str
  | 0, _ => []
  | _, [] => []
  | fuel + 1, c :: rest =>
    match spanAt (c :: rest) with
    | some (span, rest2) => span :: findSpansAux fuel rest2
    | none => findSpansAux fuel rest

/-- All non-overlapping Title-Case multi-word candidate spans of a line. -/
def findSpans (l : Str) : List Str :=
  findSpansAux l.length l

/-- A dash, em-dash or colon, the class `[-—:]`. -/
def isDashColon (c : Char) : Bool :=
  c = '-' || c = '—' || c = ':'

/-- A dash or em-dash, the class `[-—]`. -/
def isDash (c : Char) : Bool :=
  c = '-' || c = '—'

/-- Consume `(abstrak|abstract)` case-insensitively.  The two alternatives
differ at their seventh character, so at most one can match. -/
def eatAbstractWord (l : Str) : Option Str :=
  match eatCI "abstrak".data l with
  | some r => some r
  | none => eatCI "abstract".data l

/-- The source's `re.match(r'^(abstrak|abstract)\s*[-—:]?\s*$', line,
re.IGNORECASE)`: a standalone abstract header. -/
def reAbstractStandalone (l : Str) : Bool :=
  match eatAbstractWord l with
  | none => false
  | some r =>
    match r.dropWhile isPySpace with
    | [] => true
    | c :: rest => isDashColon c && (rest.dropWhile isPySpace).isEmpty

/-- The source's `re.match(r'^(abstrak|abstract)\s*[-—]', line,
re.IGNORECASE)`: an inline abstract header followed by a dash. -/
def reAbstractDash (l : Str) : Bool :=
  match eatAbstractWord l with
  | none => false
  | some r =>
    match r.dropWhile isPySpace with
    | c :: _ => isDash c
    | [] => false

/-- The source's `re.sub(r'^(abstrak|abstract)\s*[-—]\s*', '', line, ...)`:
strip the inline header, or return the line unchanged when it does not
match. -/
def stripAbstractDash (l : Str) : Str :=
  match eatAbstractWord l with
  | none => l
  | some r =>
    match r.dropWhile isPySpace with
    | c :: rest => if isDash c then rest.dropWhile isPySpace else l
    | [] => l

/-- The source's `re.match(r'^(abstrak|abstract)\s*[-—:]', line,
re.IGNORECASE)`: the bilingual-guard stop pattern, which requires a
separator after the header word. -/
def reAbstractSep (l : Str) : Bool :=
  match eatAbstractWord l with
  | none => false
  | some r =>
    match r.dropWhile isPySpace with
    | c :: _ => isDashColon c
    | [] => false

/-- An optional whitespace-or-hyphen, the `[\s\-]?` inside the keyword
header (the following literal starts with a letter, so greedy consumption
is complete). -/
def eatOptWsDash (l : Str) : Str :=
  match l with
  | c :: rest => if isPySpace c || c = '-' then rest else l
  | [] => l

/-- Consume `(kata[\s\-]?kunci|key[\s\-]?words?)` case-insensitively.  The
alternatives differ at their second character, so at most one can match. -/
def eatKwHead (l : Str) : Option Str :=
  match eatCI "kata".data l with
  | some r => eatCI "kunci".data (eatOptWsDash r)
  | none =>
    match eatCI "key".data l with
    | some r =>
      match eatCI "word".data (eatOptWsDash r) with
      | some r2 =>
        some (match r2 with
              | c :: rest => if Char.toLower c = 's' then rest else r2
              | [] => r2)
      | none => none
    | none => none

/-- Prefix match of `(kata[\s\-]?kunci|key[\s\-]?words?)\s*[-—:]`, the
keyword-header stop pattern of the abstract collector. -/
def reKwHeaderPrefix (l : Str) : Bool :=
  match eatKwHead l with
  | none => false
  | some r =>
    match r.dropWhile isPySpace with
    | c :: _ => isDashColon c
    | [] => false

/-- The source's intro stop pattern
`re.match(r'^(pendahuluan|introduction|latar belakang|^I\.\s|^1\.\s)', line,
re.IGNORECASE)`. -/
def reIntro (l : Str) : Bool :=
  (eatCI "pendahuluan".data l).isSome ||
  (eatCI "introduction".data l).isSome ||
  (eatCI "latar belakang".data l).isSome ||
  (match l with
   | c :: '.' :: d :: _ => (Char.toLower c = 'i' || c = '1') && isPySpace d
   | _ => false)

/-- Trailing-superscript removal `re.sub(r'[¹²³⁴⁵⁶⁷⁸⁹]+$', '', s)`. -/
def stripTrailingSup (l : Str) : Str :=
  (l.reverse.dropWhile isSupDigit).reverse

/-- The output record of `extract_metadata`. -/
structure Metadata where
  judul : Option Str
  penulis : Option Str
  abstrak : Option Str
  kata_kunci : List Str
deriving DecidableEq, Repr

/-- Line cleaning of `extract_metadata`: split on newlines, strip, drop the
empty results, then drop digit-and-space lines, `Page n` lines, and lines of
length at most two. -/
def cleanLines (text : Str) : List Str :=
  (((splitWhen (fun c => c = '\n') text).map pyStrip).filter
      (fun l => !l.isEmpty)).filter
    (fun line =>
      !reOnlyDigitsSpaces line && !rePageNum line && !decide (line.length ≤ 2))

/-- Affiliation absorption shared by the title and author scans: the
source's `for j in range(1, 3)` lookahead that stops at an abstract token
or at the first line without an affiliation marker. -/
def affilAbsorb (lines : List Str) (i : Nat) : List Str :=
  match lines.get? (i + 1) with
  | none => []
  | some l1 =>
    if abstractWordHit l1 then []
    else if affilHit l1 then
      l1 :: (match lines.get? (i + 2) with
             | none => []
             | some l2 =>
               if abstractWordHit l2 then []
               else if affilHit l2 then [l2] else [])
    else []

/-- The scan of `_extract_title` over `lines[:50]` (fuel 50, index `i`,
title accumulator reversed, author-line accumulator, `found_authors`
flag). -/
def titleScanAux (lines : List Str) :
    Nat → Nat → List Str → List Str → Bool → List Str
  | 0, _, tAcc, _, _ => tAcc.reverse
  | fuel + 1, i, tAcc, aAcc, found =>
    match lines.get? i with
    | none => tAcc.reverse
    | some line =>
      if skipWordsHit line then titleScanAux lines fuel (i + 1) tAcc aAcc found
      else if decide (line.length < 5) || pyIsDigit line then
        titleScanAux lines fuel (i + 1) tAcc aAcc found
      else if sigSearch line && !narrativeHit line then
        titleScanAux lines fuel (i + 1) tAcc (aAcc ++ line :: affilAbsorb lines i) true
      else if !found then
        if reDigits1to3 line then titleScanAux lines fuel (i + 1) tAcc aAcc found
        else if reDigits4 line || reMonthYear line then
          titleScanAux lines fuel (i + 1) tAcc aAcc found
        else titleScanAux lines fuel (i + 1) (line :: tAcc) aAcc found
      else tAcc.reverse

/-- The source's `_extract_title`. -/
def extractTitle (lines : List Str) : Option Str :=
  let title_lines := titleScanAux lines 50 0 [] [] false
  if title_lines.isEmpty then none
  else
    some (pyStrip (stripTrailingSup (pyStrip (collapseWs (joinWith " ".data title_lines)))))

/-- The primary author scan of `_extract_authors` over `lines[:50]`: stop
at the first signature line not vetoed by a narrative word, keeping it
together with its absorbed affiliation lines. -/
def authorsScanAux (lines : List Str) : Nat → Nat → List Str
  | 0, _ => []
  | fuel + 1, i =>
    match lines.get? i with
    | none => []
    | some line =>
      if sigSearch line && !narrativeHit line then line :: affilAbsorb lines i
      else authorsScanAux lines fuel (i + 1)

/-- Per-line name harvesting of `_extract_authors`: reject degree-prefix,
university and email lines, strip superscripts and digits, split on commas
and keep the Title-Case parts longer than two characters. -/
def authorPartsOfLine (line : Str) : List Str :=
  if degreePrefix line || containsSub (pyLower line) "universitas".data then []
  else if line.contains '@' then []
  else
    let clean1 := line.filter (fun c => !isSupDigit c)
    let clean2 := clean1.filter (fun c => !isDigitChar c)
    ((splitWhen (fun c => c = ',') clean2).map pyStrip).filter
      (fun p => nameShape p && decide (2 < p.length))

/-- Order-preserving deduplication with a `seen` accumulator. -/
def dedupAux : List Str → List Str → List Str
  | _, [] => []
  | seen, a :: rest =>
    if a ∈ seen then dedupAux seen rest else a :: dedupAux (a :: seen) rest

/-- The fallback author scan of `_extract_authors` over `lines[:60]` (fuel
60): the first line starting with a capitalized word and free of `@` whose
multi-word Title-Case spans are non-empty yields those spans. -/
def fallbackAux : Nat → List Str → Option Str
  | 0, _ => none
  | _, [] => none
  | fuel + 1, line :: rest =>
    if startsUpperLower line && !line.contains '@' then
      let names := findSpans line
      if names.isEmpty then fallbackAux fuel rest
      else
        let names2 := names.filter (fun n => n.contains ' ')
        if names2.isEmpty then fallbackAux fuel rest
        else some (joinWith ", ".data (names2.take 10))
    else fallbackAux fuel rest

/-- The source's `_extract_authors`. -/
def extractAuthors (lines : List Str) : Option Str :=
  let author_lines := authorsScanAux lines 50 0
  let authors := author_lines.flatMap authorPartsOfLine
  if authors.isEmpty then fallbackAux 60 lines
  else some (joinWith ", ".data ((dedupAux [] authors).take 10))

/-- Header search of `_extract_abstract`: the first line matching the
standalone or the inline header pattern, returning the initial body
fragments and the body start index. -/
def absFindStart : List Str → Nat → Option (List Str × Nat)
  | [], _ => none
  | line :: rest, i =>
    if reAbstractStandalone line then some ([], i + 1)
    else if reAbstractDash line then
      let content := stripAbstractDash line
      some (if content.isEmpty then [] else [content], i + 1)
    else absFindStart rest (i + 1)

/-- Body collection of `_extract_abstract` over at most 100 lines: stop at
a keyword header, a second abstract header with separator, or an intro
heading; keep lines longer than five characters. -/
def absCollect : Nat → List Str → List Str
  | 0, _ => []
  | _, [] => []
  | fuel + 1, line :: rest =>
    if reKwHeaderPrefix line then []
    else if reAbstractSep line then []
    else if reIntro line then []
    else if decide (5 < line.length) then line :: absCollect fuel rest
    else absCollect fuel rest

/-- The source's `_extract_abstract`. -/
def extractAbstract (lines : List Str) : Option Str :=
  match absFindStart lines 0 with
  | none => none
  | some (init, start) =>
    let body := if start < lines.length then absCollect 100 (lines.drop start) else []
    let abstract_text := init ++ body
    if abstract_text.isEmpty then none
    else some (pyStrip (collapseWs (joinWith " ".data abstract_text)))

/-- Keyword-header search `(^|\.\s*)(kata[\s\-]?kunci|key[\s\-]?words?)\s*[-—:]`:
a header-with-separator at the line start or directly after a period and
optional whitespace. -/
def kwSearchHit (l : Str) : Bool :=
  reKwHeaderPrefix l ||
  l.tails.any (fun t =>
    match t with
    | '.' :: rest => reKwHeaderPrefix (rest.dropWhile isPySpace)
    | _ => false)

/-- Match `(kata[\s\-]?kunci|key[\s\-]?words?)\s*[-—:]\s*` and return the
remainder. -/
def eatKwSep (l : Str) : Option Str :=
  match eatKwHead l with
  | none => none
  | some r =>
    match r.dropWhile isPySpace with
    | c :: rest => if isDashColon c then some (rest.dropWhile isPySpace) else none
    | [] => none

/-- Greedy-prefix search of the keyword `re.sub`: try the header match at
descending start positions, realising the greedy `^.*` of the pattern. -/
def kwSubAux (l : Str) : Nat → Option Str
  | 0 => eatKwSep l
  | p + 1 =>
    match eatKwSep (l.drop (p + 1)) with
    | some r => some r
    | none => kwSubAux l p

/-- The source's
`re.sub(r'^.*(kata[\s\-]?kunci|key[\s\-]?words?)\s*[-—:]\s*', '', line, ...)`:
everything through the last header separator is removed; the line is
unchanged when the pattern does not occur. -/
def kwSub (l : Str) : Str :=
  match kwSubAux l l.length with
  | some r => r
  | none => l

/-- The continuation guard of `_extract_keywords` on the line after the
header, `re.match(r'^(Abstract|Abstrak|Pendahuluan|Introduction|I\.|1\.|[A-Z][a-z]+ [a-z]+ [a-z]+)', next_line)`
(case-sensitive). -/
def reNextLineSection (l : Str) : Bool :=
  "Abstract".data.isPrefixOf l || "Abstrak".data.isPrefixOf l ||
  "Pendahuluan".data.isPrefixOf l || "Introduction".data.isPrefixOf l ||
  "I.".data.isPrefixOf l || "1.".data.isPrefixOf l ||
  (match l with
   | c :: d :: rest =>
     isUpper c && isLower d &&
       (match rest.dropWhile isLower with
        | ' ' :: r2 =>
          (match r2 with
           | e :: r3 =>
             isLower e &&
               (match r3.dropWhile isLower with
                | ' ' :: f :: _ => isLower f
                | _ => false)
           | [] => false)
        | _ => false)
   | _ => false)

/-- Python `s.endswith(c)` for a single character. -/
def endsWith (c : Char) (l : Str) : Bool :=
  l.getLast? = some c

/-- The keyword-section scan of `_extract_keywords`: first line with a
header hit yields the stripped section, possibly extended by the next line
when it plausibly continues the list. -/
def kwSectionScan : List Str → Str
  | [] => []
  | line :: rest =>
    if kwSearchHit line then
      let sec := kwSub line
      match rest with
      | [] => sec
      | next :: _ =>
        if (next.contains ',' || decide (next.length < 100)) && !reNextLineSection next then
          if endsWith ',' (pyRstripWs sec) || !endsWith '.' (pyRstripWs sec) then
            sec ++ ' ' :: next
          else sec
        else sec
    else kwSectionScan rest

/-- Normalisation and splitting of the keyword section: strip a trailing
period, turn semicolons and the conjunctions into commas, split on commas,
clean each piece and keep those of length 3 to 99 with at most five words,
capped at ten. -/
def kwPostProcess (keywords_section : Str) : List Str :=
  if keywords_section.isEmpty then []
  else
    let s1 := pyRstripChars ['.'] keywords_section
    let s2 := pyReplace s1 ";".data ",".data
    let s3 := pyReplace s2 " dan ".data ", ".data
    let s4 := pyReplace s3 " and ".data ", ".data
    let ks := (splitWhen (fun c => c = ',') s4).map
      (fun k => pyRstripChars ['.', ' '] (pyStrip k))
    (ks.filter (fun k =>
      !k.isEmpty && decide (2 < k.length) && decide (k.length < 100) &&
        decide (pyWordCount k ≤ 5))).take 10

/-- The source's `_extract_keywords`. -/
def extractKeywords (lines : List Str) : List Str :=
  kwPostProcess (kwSectionScan lines)

/-- The source's `extract_metadata(text, filename="")`: clean the lines and
assemble the four fields.  The `filename` parameter is accepted and, as in
the source, never used. -/
def extract_metadata (text : String) (filename : String) : Metadata :=
  let lines := cleanLines text.data
  { judul := extractTitle lines
    penulis := extractAuthors lines
    abstrak := extractAbstract lines
    kata_kunci := extractKeywords lines }

/-- Pieces produced by `splitWhen` contain no separator character. -/
theorem mem_splitWhen_not_sep {p : Char → Bool} :
    ∀ {l piece : Str}, piece ∈ splitWhen p l → ∀ c ∈ piece, p c = false := by
  intro l
  induction l with
  | nil =>
    intro piece hp c hc
    simp [splitWhen] at hp
    subst hp
    simp at hc
  | cons a rest ih =>
    intro piece hp c hc
    simp only [splitWhen] at hp
    cases hq : splitWhen p rest with
    | nil => simp [hq] at hp; subst hp; simp at hc
    | cons q qs =>
      rw [hq] at hp
      by_cases hpa : p a = true
      · simp [hpa] at hp
        rcases hp with hp | hp | hp
        · subst hp; simp at hc
        · exact ih (hq ▸ List.mem_cons_self q qs) c (hp ▸ hc)
        · exact ih (hq ▸ List.mem_cons_of_mem q hp) c hc
      · simp [hpa] at hp
        rcases hp with hp | hp
        · subst hp
          rcases List.mem_cons.mp hc with hc | hc
          · subst hc; simpa using hpa
          · exact ih (hq ▸ List.mem_cons_self q qs) c hc
        · exact ih (hq ▸ List.mem_cons_of_mem q hp) c hc

/-- Characters of a `splitWhen` piece are characters of the split string. -/
theorem mem_splitWhen_mem {p : Char → Bool} :
    ∀ {l piece : Str}, piece ∈ splitWhen p l → ∀ c ∈ piece, c ∈ l := by
  intro l
  induction l with
  | nil =>
    intro piece hp c hc
    simp [splitWhen] at hp
    subst hp
    simp at hc
  | cons a rest ih =>
    intro piece hp c hc
    simp only [splitWhen] at hp
    cases hq : splitWhen p rest with
    | nil => simp [hq] at hp; subst hp; simp at hc
    | cons q qs =>
      rw [hq] at hp
      by_cases hpa : p a = true
      · simp [hpa] at hp
        rcases hp with hp | hp | hp
        · subst hp; simp at hc
        · exact List.mem_cons_of_mem a (ih (hq ▸ List.mem_cons_self q qs) c (hp ▸ hc))
        · exact List.mem_cons_of_mem a (ih (hq ▸ List.mem_cons_of_mem q hp) c hc)
      · simp [hpa] at hp
        rcases hp with hp | hp
        · subst hp
          rcases List.mem_cons.mp hc with hc | hc
          · subst hc; exact List.mem_cons_self c rest
          · exact List.mem_cons_of_mem a (ih (hq ▸ List.mem_cons_self q qs) c hc)
        · exact List.mem_cons_of_mem a (ih (hq ▸ List.mem_cons_of_mem q hp) c hc)

/-- Membership is preserved from `dropWhile` back to the original list. -/
theorem mem_of_mem_dropWhile {p : Char → Bool} :
    ∀ {l : Str} {c : Char}, c ∈ l.dropWhile p → c ∈ l := by
  intro l
  induction l with
  | nil => intro c hc; simp at hc
  | cons a rest ih =>
    intro c hc
    by_cases hpa : p a = true
    · simp [List.dropWhile, hpa] at hc
      exact List.mem_cons_of_mem a (ih hc)
    · simp [List.dropWhile, hpa] at hc
      simpa using hc

/-- Characters of `pyStrip l` are characters of `l`. -/
theorem mem_pyStrip {l : Str} {c : Char} (h : c ∈ pyStrip l) : c ∈ l := by
  unfold pyStrip at h
  rw [List.mem_reverse] at h
  have h2 := mem_of_mem_dropWhile h
  rw [List.mem_reverse] at h2
  exact mem_of_mem_dropWhile h2

/-- Characters of `pyRstripChars cs l` are characters of `l`. -/
theorem mem_pyRstripChars {cs : List Char} {l : Str} {c : Char}
    (h : c ∈ pyRstripChars cs l) : c ∈ l := by
  unfold pyRstripChars at h
  rw [List.mem_reverse] at h
  have h2 := mem_of_mem_dropWhile h
  rwa [List.mem_reverse] at h2

/-- The head of a `dropWhile` result falsifies the dropped predicate. -/
theorem head?_dropWhile {p : Char → Bool} :
    ∀ {l : Str} {c : Char}, (l.dropWhile p).head? = some c → p c = false := by
  intro l
  induction l with
  | nil => intro c hc; simp at hc
  | cons a rest ih =>
    intro c hc
    by_cases hpa : p a = true
    · exact ih (by simpa [List.dropWhile, hpa] using hc)
    · simp [List.dropWhile, hpa] at hc
      subst hc
      simpa using hpa

/-- The last element of a `dropWhile` result is the last of the input. -/
theorem getLast?_dropWhile {p : Char → Bool} :
    ∀ {l : Str} {c : Char}, (l.dropWhile p).getLast? = some c → l.getLast? = some c := by
  intro l
  induction l with
  | nil => intro c hc; simp at hc
  | cons a rest ih =>
    intro c hc
    by_cases hpa : p a = true
    · rw [List.dropWhile_cons_of_pos hpa] at hc
      have hr := ih hc
      have hne : rest ≠ [] := by
        intro h0
        subst h0
        simp at hr
      cases rest with
      | nil => exact absurd rfl hne
      | cons b bs => simpa [List.getLast?_cons_cons] using hr
    · rwa [List.dropWhile_cons_of_neg hpa] at hc

/-- The last character of `pyRstripChars cs l` is not in `cs`. -/
theorem getLast?_pyRstripChars {cs : List Char} {l : Str} {c : Char}
    (h : (pyRstripChars cs l).getLast? = some c) : cs.contains c = false := by
  unfold pyRstripChars at h
  rw [List.getLast?_reverse] at h
  exact head?_dropWhile h

/-- The head of `pyRstripChars cs l`, when present, is the head of `l`. -/
theorem head?_pyRstripChars {cs : List Char} {l : Str} {c : Char}
    (h : (pyRstripChars cs l).head? = some c) : l.head? = some c := by
  unfold pyRstripChars at h
  rw [List.head?_reverse] at h
  have h2 := getLast?_dropWhile h
  rwa [List.getLast?_reverse] at h2

/-- The head of `pyStrip l` is never whitespace. -/
theorem head?_pyStrip {l : Str} {c : Char} (h : (pyStrip l).head? = some c) :
    isPySpace c = false := by
  unfold pyStrip at h
  rw [List.head?_reverse] at h
  have h2 := getLast?_dropWhile h
  rw [List.getLast?_reverse] at h2
  exact head?_dropWhile h2

/-- A replacement whose pattern is the single character `x`, replaced by a
string free of `x`, eliminates `x` whenever the fuel covers the string. -/
theorem pyReplaceAux_single_elim {x : Char} {rep : Str} (hrep : x ∉ rep) :
    ∀ fuel (l : Str), l.length ≤ fuel → x ∉ pyReplaceAux [x] rep fuel l := by
  intro fuel
  induction fuel with
  | zero =>
    intro l hl
    have : l = [] := List.eq_nil_of_length_eq_zero (Nat.le_zero.mp hl)
    subst this
    simp [pyReplaceAux]
  | succ n ih =>
    intro l hl
    cases l with
    | nil => simp [pyReplaceAux]
    | cons a rest =>
      simp only [pyReplaceAux]
      by_cases hc : ([x].isPrefixOf (a :: rest) && !(List.isEmpty [x])) = true
      · rw [if_pos hc]
        intro hmem
        rcases List.mem_append.mp hmem with hm | hm
        · exact hrep hm
        · exact ih (rest.drop 0) (by simpa using Nat.le_of_succ_le_succ hl) hm
      · rw [if_neg hc]
        have ha : ¬ x = a := by
          simp [List.isPrefixOf] at hc
          exact hc
        intro hmem
        rcases List.mem_cons.mp hmem with hm | hm
        · exact ha hm
        · exact ih rest (Nat.le_of_succ_le_succ hl) hm

/-- A replacement cannot introduce a character absent from both the string
and the replacement text. -/
theorem pyReplaceAux_no_new {x : Char} {pat rep : Str} (hrep : x ∉ rep) :
    ∀ fuel (l : Str), x ∉ l → x ∉ pyReplaceAux pat rep fuel l := by
  intro fuel
  induction fuel with
  | zero =>
    intro l hl
    cases l with
    | nil => simp [pyReplaceAux]
    | cons a rest => simpa [pyReplaceAux] using hl
  | succ n ih =>
    intro l hl
    cases l with
    | nil => simp [pyReplaceAux]
    | cons a rest =>
      simp only [pyReplaceAux]
      by_cases hc : (pat.isPrefixOf (a :: rest) && !pat.isEmpty) = true
      · rw [if_pos hc]
        intro hmem
        rcases List.mem_append.mp hmem with hm | hm
        · exact hrep hm
        · exact ih _ (fun hx => hl (List.mem_cons_of_mem a (List.drop_subset _ rest hx))) hm
      · rw [if_neg hc]
        intro hmem
        rcases List.mem_cons.mp hmem with hm | hm
        · exact hl (hm ▸ List.mem_cons_self a rest)
        · exact ih rest (fun hx => hl (List.mem_cons_of_mem a hx)) hm

/-- C1: `extract_metadata` is a total function of its input (it is a plain
`def`, so it terminates and raises nothing for every input string), and on
the empty string every field is absent and the keyword list is empty,
whatever the unused `filename` argument is. -/
theorem empty_input_all_absent (fn : String) :
    extract_metadata "" fn =
      { judul := none, penulis := none, abstrak := none, kata_kunci := [] } := rfl

/-- C7: the conjunction words act as keyword separators: the keyword line
`"Kata Kunci: IoT dan smart home dan automation"` yields the three entries
`["IoT", "smart home", "automation"]`, not one entry. -/
theorem keyword_conjunction_split :
    (extract_metadata "Kata Kunci: IoT dan smart home dan automation" "").kata_kunci =
      ["IoT".data, "smart home".data, "automation".data] := by decide

/-- C8: `extract_metadata` is deterministic: it is a pure function of its
arguments, so two applications to the same text are equal. -/
theorem extract_metadata_deterministic (text fn : String) :
    extract_metadata text fn = extract_metadata text fn := rfl

/-- C9: the `filename` parameter does not influence the result: the body of
`extract_metadata` never consults it. -/
theorem extract_metadata_filename_irrelevant (text a b : String) :
    extract_metadata text a = extract_metadata text b := rfl

/-- C2, counterexample: the input `"Budi Santoso"` has no author-signature
line anywhere in its first 50 cleaned lines, yet extraction yields a
present `penulis` field through the fallback scan, so the claimed hard
cutoff is false as stated. -/
theorem bounded_scan_cex :
    (∀ l ∈ (cleanLines "Budi Santoso".data).take 50, sigSearch l = false) ∧
      (extract_metadata "Budi Santoso" "").penulis = some "Budi Santoso".data := by decide

/-- C3, counterexample: the keyword list is not deduplicated, so the input
`"Kata Kunci: abc, abc"` yields two equal entries and the extracted list is
not pairwise distinct. -/
theorem keyword_invariants_cex :
    (extract_metadata "Kata Kunci: abc, abc" "").kata_kunci =
        ["abc".data, "abc".data] ∧
      ¬ (extract_metadata "Kata Kunci: abc, abc" "").kata_kunci.Nodup := by decide

/-- C4, counterexample: with the literal keywords line
`"Kata Kunci: x, y, z"` each candidate has length 1, the length filter
(length strictly greater than 2) drops all of them, and the keyword list is
empty rather than `["x", "y", "z"]`; the abstract does exclude the keywords
line. -/
theorem abstract_termination_cex :
    (extract_metadata "Abstract\nThe abstract body is long enough.\nKata Kunci: x, y, z"
          "").kata_kunci = [] ∧
      (extract_metadata "Abstract\nThe abstract body is long enough.\nKata Kunci: x, y, z"
          "").abstrak = some "The abstract body is long enough.".data := by decide

/-- C5, counterexample: a second bare `"Abstract"` header (no dash or
colon) does not match the stop pattern `^(abstrak|abstract)\s*[-—:]`, so it
and the following body are appended to the first abstract: the cleaned
lines contain two abstract headers, yet the extracted abstract contains the
second header line and the second body. -/
theorem bilingual_abstract_cex :
    ((cleanLines "Abstract\nThe first abstract body.\nAbstract\nIni abstrak kedua.".data).filter
          (fun l => l == "Abstract".data)).length = 2 ∧
      (extract_metadata "Abstract\nThe first abstract body.\nAbstract\nIni abstrak kedua."
          "").abstrak =
        some "The first abstract body. Abstract Ini abstrak kedua.".data := by decide

/-- C6, counterexample: the primary name filter accepts one-word names (it
checks the Title-Case regex and length strictly greater than 2, not a
two-word minimum), and the fallback scan does not deduplicate: the first
input yields the single-word names `"Ahmad"` and `"Budi"`, the second
yields the same name twice. -/
theorem authors_shape_cex :
    (extract_metadata "Ahmad1, Budi" "").penulis = some "Ahmad, Budi".data ∧
      pyWordCount "Ahmad".data = 1 ∧
      (extract_metadata "Budi Santoso dan Budi Santoso" "").penulis =
        some "Budi Santoso, Budi Santoso".data := by decide

/-- C10, counterexample: `rstrip('. ')` can expose a trailing tab, which is
whitespace: the entry `"ab\t"` of this input ends with a whitespace
character. -/
theorem keyword_whitespace_cex :
    (extract_metadata "Kata Kunci: ab\t., xyz" "").kata_kunci =
        ["ab\t".data, "xyz".data] ∧
      isPySpace '\t' = true := by decide

/-- Every keyword produced by `kwPostProcess` passes the final filter. -/
theorem kwPostProcess_shape (s : Str) :
    (kwPostProcess s).length ≤ 10 ∧
      ∀ k ∈ kwPostProcess s,
        (∃ piece, k = pyRstripChars ['.', ' '] (pyStrip piece) ∧
            (∀ c ∈ piece, decide (c = ',') = false) ∧
            (∀ c ∈ piece,
              c ∈ pyReplace
                    (pyReplace (pyReplace (pyRstripChars ['.'] s) ";".data ",".data)
                      " dan ".data ", ".data)
                    " and ".data ", ".data)) ∧
          k.isEmpty = false ∧ 2 < k.length ∧ k.length < 100 ∧ pyWordCount k ≤ 5 := by
  unfold kwPostProcess
  by_cases hs : s.isEmpty = true
  · simp [hs]
  · simp only [hs, Bool.false_eq_true, if_false]
    constructor
    · simp [List.length_take]
    · intro k hk
      have hk2 := List.take_subset 10 _ hk
      rw [List.mem_filter] at hk2
      obtain ⟨hmem, hcond⟩ := hk2
      simp only [Bool.and_eq_true, decide_eq_true_eq, Bool.not_eq_true'] at hcond
      obtain ⟨⟨⟨hne, hlen2⟩, hlen100⟩, hwc⟩ := hcond
      rw [List.mem_map] at hmem
      obtain ⟨piece, hpiece, hkeq⟩ := hmem
      refine ⟨⟨piece, hkeq.symm, ?_, ?_⟩, hne, hlen2, hlen100, hwc⟩
      · exact fun c hc => mem_splitWhen_not_sep hpiece c hc
      · exact fun c hc => mem_splitWhen_mem hpiece c hc

/-- C3 (amended): the extracted keyword list has at most 10 entries, and
every entry is 3 to 99 characters long with at most 5 whitespace-separated
words; the entries need not be pairwise distinct, since the source never
deduplicates them. -/
theorem keyword_invariants_amended (text fn : String) :
    (extract_metadata text fn).kata_kunci.length ≤ 10 ∧
      ∀ k ∈ (extract_metadata text fn).kata_kunci,
        3 ≤ k.length ∧ k.length ≤ 99 ∧ pyWordCount k ≤ 5 := by
  have h := kwPostProcess_shape (kwSectionScan (cleanLines text.data))
  refine ⟨h.1, fun k hk => ?_⟩
  obtain ⟨-, -, hlen2, hlen100, hwc⟩ := h.2 k hk
  exact ⟨hlen2, Nat.lt_succ_iff.mp hlen100, hwc⟩

/-- C3 witness: the amended invariant at a concrete input and entry. -/
theorem keyword_invariants_amended_witness :
    (extract_metadata "Keywords: satu dua" "").kata_kunci.length ≤ 10 ∧
      (3 ≤ "satu dua".data.length ∧ "satu dua".data.length ≤ 99 ∧
        pyWordCount "satu dua".data ≤ 5) :=
  ⟨(keyword_invariants_amended "Keywords: satu dua" "").1,
   (keyword_invariants_amended "Keywords: satu dua" "").2 "satu dua".data (by decide)⟩

/-- C10 (amended): every extracted keyword entry is non-empty, contains no
comma and no semicolon, does not start with whitespace, and ends neither
with a period nor with a space character; a non-space whitespace character
such as a tab can end an entry, since `rstrip('. ')` only removes periods
and spaces. -/
theorem keyword_entry_shape_amended (text fn : String) :
    ∀ k ∈ (extract_metadata text fn).kata_kunci,
      k ≠ [] ∧ ',' ∉ k ∧ ';' ∉ k ∧
        (∀ c, k.head? = some c → isPySpace c = false) ∧
        (∀ c, k.getLast? = some c → c ≠ '.' ∧ c ≠ ' ') := by
  intro k hk
  have h := (kwPostProcess_shape (kwSectionScan (cleanLines text.data))).2 k hk
  obtain ⟨⟨piece, hkeq, hnosep, hchars⟩, hne, -, -, -⟩ := h
  have hks : ∀ c ∈ k, c ∈ piece := by
    intro c hc
    exact mem_pyStrip (mem_pyRstripChars (hkeq ▸ hc))
  refine ⟨?_, ?_, ?_, ?_, ?_⟩
  · intro h0
    rw [h0] at hne
    simp at hne
  · intro hmem
    have := hnosep ',' (hks ',' hmem)
    simp at this
  · intro hmem
    have hsemi : (';' : Char) ∈ pyReplace
        (pyReplace (pyReplace (pyRstripChars ['.']
            (kwSectionScan (cleanLines text.data))) ";".data ",".data)
          " dan ".data ", ".data) " and ".data ", ".data :=
      hchars ';' (hks ';' hmem)
    have h2 : (';' : Char) ∉ pyReplace (pyRstripChars ['.']
        (kwSectionScan (cleanLines text.data))) ";".data ",".data := by
      unfold pyReplace
      exact pyReplaceAux_single_elim (by decide) _ _ (Nat.le_refl _)
    have h3 : (';' : Char) ∉ pyReplace
        (pyReplace (pyRstripChars ['.'] (kwSectionScan (cleanLines text.data)))
          ";".data ",".data) " dan ".data ", ".data := by
      unfold pyReplace
      exact pyReplaceAux_no_new (by decide) _ _ h2
    have h4 : (';' : Char) ∉ pyReplace (pyReplace
        (pyReplace (pyRstripChars ['.'] (kwSectionScan (cleanLines text.data)))
          ";".data ",".data) " dan ".data ", ".data) " and ".data ", ".data := by
      unfold pyReplace
      exact pyReplaceAux_no_new (by decide) _ _ h3
    exact h4 hsemi
  · intro c hc
    rw [hkeq] at hc
    exact head?_pyStrip (head?_pyRstripChars hc)
  · intro c hc
    rw [hkeq] at hc
    have := getLast?_pyRstripChars hc
    simp [List.contains] at this
    exact ⟨this.1, this.2⟩

/-- C10 witness: the amended entry shape at a concrete input and entry. -/
theorem keyword_entry_shape_amended_witness :
    "teknologi informasi".data ≠ [] ∧ ',' ∉ "teknologi informasi".data ∧
      ';' ∉ "teknologi informasi".data ∧
      (∀ c, "teknologi informasi".data.head? = some c → isPySpace c = false) ∧
      (∀ c, "teknologi informasi".data.getLast? = some c → c ≠ '.' ∧ c ≠ ' ') :=
  keyword_entry_shape_amended "Kata Kunci: teknologi informasi" ""
    "teknologi informasi".data (by decide)

/-- A line on which the fallback author scan fires: it starts with a
capitalized word, contains no `@`, and contains a multi-word Title-Case
span. -/
def fallbackHit (l : Str) : Bool :=
  startsUpperLower l && !l.contains '@' &&
    !((findSpans l).filter (fun n => n.contains ' ')).isEmpty

/-- If no line visible to the primary author scan matches the author
signature (with indices in `get?` form), the scan returns no author
lines. -/
theorem authorsScanAux_nil (lines : List Str) :
    ∀ fuel i,
      (∀ j, j < fuel → ∀ l, lines.get? (i + j) = some l → sigSearch l = false) →
      authorsScanAux lines fuel i = [] := by
  intro fuel
  induction fuel with
  | zero => intro i _; rfl
  | succ n ih =>
    intro i hs
    simp only [authorsScanAux]
    cases hg : lines.get? i with
    | none => rfl
    | some line =>
      have hsig : sigSearch line = false :=
        hs 0 (Nat.succ_pos n) line (by simpa using hg)
      simp only [hsig, Bool.false_and, Bool.false_eq_true, if_false]
      exact ih (i + 1) (fun j hj l hl =>
        hs (j + 1) (Nat.succ_lt_succ hj) l
          (by rw [show i + (j + 1) = i + 1 + j by omega]; exact hl))

/-- If no line visible to the fallback author scan fires, the fallback
returns nothing. -/
theorem fallbackAux_none :
    ∀ fuel (ls : List Str),
      (∀ l ∈ ls.take fuel, fallbackHit l = false) → fallbackAux fuel ls = none := by
  intro fuel
  induction fuel with
  | zero => intro ls _; cases ls <;> rfl
  | succ n ih =>
    intro ls hs
    cases ls with
    | nil => rfl
    | cons line rest =>
      have h0 : fallbackHit line = false :=
        hs line (by simp [List.take_succ_cons])
      have hrec := ih rest (fun l hl => hs l (by simp [List.take_succ_cons, hl]))
      simp only [fallbackAux]
      by_cases hcond : (startsUpperLower line && !line.contains '@') = true
      · rw [if_pos hcond]
        have hemp : ((findSpans line).filter (fun x => x.contains ' ')).isEmpty = true := by
          unfold fallbackHit at h0
          rcases Bool.and_eq_false_iff.mp h0 with h | h
          · rw [h] at hcond; exact absurd hcond (by simp)
          · simpa using h
        by_cases hnames : (findSpans line).isEmpty = true
        · rw [if_pos hnames]; exact hrec
        · rw [if_neg hnames, if_pos hemp]; exact hrec
      · rw [if_neg hcond]; exact hrec

/-- Membership form of the no-signature hypothesis, converted to indexed
form. -/
theorem take_mem_of_get {lines : List Str} {n : Nat}
    (h : ∀ l ∈ lines.take n, sigSearch l = false) :
    ∀ j, j < n → ∀ l, lines.get? (0 + j) = some l → sigSearch l = false := by
  intro j hj l hl
  rw [Nat.zero_add, List.get?_eq_getElem?] at hl
  have ht : (lines.take n)[j]? = some l := by
    rwa [List.getElem?_take_of_lt hj]
  exact h l (List.getElem?_mem ht)

/-- C2 (amended): the 50-line bound is a hard cutoff for the primary
signature scan only; authors are absent exactly when additionally no line
among the first 60 cleaned lines lets the fallback scan fire.  Under these
two conditions authors are absent even if a signature line occurs later in
the document. -/
theorem bounded_scan_amended (text fn : String)
    (h50 : ∀ l ∈ (cleanLines text.data).take 50, sigSearch l = false)
    (h60 : ∀ l ∈ (cleanLines text.data).take 60, fallbackHit l = false) :
    (extract_metadata text fn).penulis = none := by
  show extractAuthors (cleanLines text.data) = none
  unfold extractAuthors
  rw [authorsScanAux_nil (cleanLines text.data) 50 0 (take_mem_of_get h50)]
  simpa using fallbackAux_none 60 (cleanLines text.data) h60

/-- A 61-line document whose only author-signature line is the 61st
cleaned line, beyond both scan windows. -/
def boundedScanDoc : String :=
  "xxxx yyyy\nxxxx yyyy\nxxxx yyyy\nxxxx yyyy\nxxxx yyyy\nxxxx yyyy\nxxxx yyyy\nxxxx yyyy\nxxxx yyyy\nxxxx yyyy\nxxxx yyyy\nxxxx yyyy\nxxxx yyyy\nxxxx yyyy\nxxxx yyyy\nxxxx yyyy\nxxxx yyyy\nxxxx yyyy\nxxxx yyyy\nxxxx yyyy\nxxxx yyyy\nxxxx yyyy\nxxxx yyyy\nxxxx yyyy\nxxxx yyyy\nxxxx yyyy\nxxxx yyyy\nxxxx yyyy\nxxxx yyyy\nxxxx yyyy\nxxxx yyyy\nxxxx yyyy\nxxxx yyyy\nxxxx yyyy\nxxxx yyyy\nxxxx yyyy\nxxxx yyyy\nxxxx yyyy\nxxxx yyyy\nxxxx yyyy\nxxxx yyyy\nxxxx yyyy\nxxxx yyyy\nxxxx yyyy\nxxxx yyyy\nxxxx yyyy\nxxxx yyyy\nxxxx yyyy\nxxxx yyyy\nxxxx yyyy\nxxxx yyyy\nxxxx yyyy\nxxxx yyyy\nxxxx yyyy\nxxxx yyyy\nxxxx yyyy\nxxxx yyyy\nxxxx yyyy\nxxxx yyyy\nxxxx yyyy\nJaneDoe1, JohnSmith2"

set_option maxRecDepth 100000 in
/-- C2 witness: the amended cutoff at the concrete document: no signature
in the first 50 cleaned lines, no fallback hit in the first 60, a
signature line beyond the windows, and an absent authors field. -/
theorem bounded_scan_amended_witness :
    (∀ l ∈ (cleanLines boundedScanDoc.data).take 50, sigSearch l = false) ∧
      (∀ l ∈ (cleanLines boundedScanDoc.data).take 60, fallbackHit l = false) ∧
      sigSearch "JaneDoe1, JohnSmith2".data = true ∧
      (extract_metadata boundedScanDoc "").penulis = none := by
  have h50 : ∀ l ∈ (cleanLines boundedScanDoc.data).take 50, sigSearch l = false := by
    decide
  have h60 : ∀ l ∈ (cleanLines boundedScanDoc.data).take 60, fallbackHit l = false := by
    decide
  exact ⟨h50, h60, by decide, bounded_scan_amended boundedScanDoc "" h50 h60⟩

/-- Abstract body collection keeps exactly the clean body lines and stops,
without including it, at the first stop line. -/
theorem absCollectStopsAtMarker :
    ∀ (b : List Str) (fuel : Nat) (h2 : Str) (rest : List Str),
      b.length < fuel →
      (∀ l ∈ b, reKwHeaderPrefix l = false ∧ reAbstractSep l = false ∧
        reIntro l = false ∧ 5 < l.length) →
      (reKwHeaderPrefix h2 = true ∨ reAbstractSep h2 = true ∨ reIntro h2 = true) →
      absCollect fuel (b ++ h2 :: rest) = b := by
  intro b
  induction b with
  | nil =>
    intro fuel h2 rest hfuel hb hstop
    cases fuel with
    | zero => omega
    | succ n =>
      simp only [List.nil_append, absCollect]
      rcases hstop with h | h | h
      · rw [h]; simp
      · rw [h]
        by_cases hk : reKwHeaderPrefix h2 = true
        · rw [hk]; simp
        · simp [hk]
      · by_cases hk : reKwHeaderPrefix h2 = true
        · rw [hk]; simp
        · by_cases ha : reAbstractSep h2 = true
          · simp [hk, ha]
          · simp [hk, ha, h]
  | cons a b ih =>
    intro fuel h2 rest hfuel hb hstop
    cases fuel with
    | zero => omega
    | succ n =>
      obtain ⟨hkw, habs, hintro, hlen⟩ := hb a (List.mem_cons_self a b)
      simp only [List.cons_append, absCollect, hkw, habs, hintro,
        Bool.false_eq_true, if_false, decide_eq_true_eq]
      rw [if_pos hlen]
      have := ih n h2 rest (by simpa using Nat.lt_of_succ_lt_succ hfuel)
        (fun l hl => hb l (List.mem_cons_of_mem a hl)) hstop
      rw [List.append_eq, this]

/-- After a standalone header at the first line, the abstract is exactly
the clean body lines up to the first stop line, which is excluded. -/
theorem extractAbstract_standalone (h1 h2 : Str) (b rest : List Str)
    (hh1 : reAbstractStandalone h1 = true)
    (hb : ∀ l ∈ b, reKwHeaderPrefix l = false ∧ reAbstractSep l = false ∧
      reIntro l = false ∧ 5 < l.length)
    (hbne : b ≠ []) (hblen : b.length < 100)
    (hstop : reKwHeaderPrefix h2 = true ∨ reAbstractSep h2 = true ∨ reIntro h2 = true) :
    extractAbstract (h1 :: (b ++ h2 :: rest)) =
      some (pyStrip (collapseWs (joinWith " ".data b))) := by
  unfold extractAbstract
  have hfind : absFindStart (h1 :: (b ++ h2 :: rest)) 0 = some ([], 1) := by
    simp [absFindStart, hh1]
  rw [hfind]
  have hlt : 1 < (h1 :: (b ++ h2 :: rest)).length := by
    simp only [List.length_cons, List.length_append]
    omega
  simp only [if_pos hlt, List.drop_one, List.tail_cons]
  rw [absCollectStopsAtMarker b 100 h2 rest hblen hb hstop]
  simp [hbne]

/-- C5 (amended): when the second abstract header carries a separator (a
dash, em-dash or colon after the header word, as the stop pattern
requires), collection stops there: the extracted abstract is exactly the
first header's body, and the second header line is excluded.  A bare
second header with no separator is not a stop line (see the
counterexample). -/
theorem bilingual_abstract_amended (h1 h2 : Str) (b rest : List Str)
    (hh1 : reAbstractStandalone h1 = true)
    (hb : ∀ l ∈ b, reKwHeaderPrefix l = false ∧ reAbstractSep l = false ∧
      reIntro l = false ∧ 5 < l.length)
    (hbne : b ≠ []) (hblen : b.length < 100)
    (hh2 : reAbstractSep h2 = true) :
    extractAbstract (h1 :: (b ++ h2 :: rest)) =
      some (pyStrip (collapseWs (joinWith " ".data b))) :=
  extractAbstract_standalone h1 h2 b rest hh1 hb hbne hblen (Or.inr (Or.inl hh2))

/-- C5 witness: the amended theorem at a concrete bilingual document whose
second header is `"Abstrak:"`. -/
theorem bilingual_abstract_amended_witness :
    extractAbstract ("Abstract".data ::
        (["The first abstract body.".data] ++ "Abstrak:".data ::
          ["Ini isi abstrak kedua.".data])) =
      some (pyStrip (collapseWs (joinWith " ".data ["The first abstract body.".data]))) :=
  bilingual_abstract_amended "Abstract".data "Abstrak:".data
    ["The first abstract body.".data] ["Ini isi abstrak kedua.".data]
    (by decide) (by decide) (by decide) (by decide) (by decide)

/-- Lines without a keyword-header hit are skipped by the keyword-section
scan. -/
theorem kwSectionScan_append (b tail : List Str)
    (hb : ∀ l ∈ b, kwSearchHit l = false) :
    kwSectionScan (b ++ tail) = kwSectionScan tail := by
  induction b with
  | nil => rfl
  | cons a b ih =>
    have ha : kwSearchHit a = false := hb a (List.mem_cons_self a b)
    simp only [List.cons_append, kwSectionScan, ha, Bool.false_eq_true, if_false]
    exact ih (fun l hl => hb l (List.mem_cons_of_mem a hl))

/-- C4 (amended): with keyword tokens long enough to pass the length
filter (at least 3 characters), the keywords line terminates the abstract
without being included, and the keyword list is exactly the three tokens.
The literal one-character tokens of the original claim are all removed by
the filter (see the counterexample). -/
theorem abstract_termination_amended (b : List Str)
    (hbne : b ≠ []) (hblen : b.length < 100)
    (hb : ∀ l ∈ b, kwSearchHit l = false ∧ reAbstractSep l = false ∧
      reIntro l = false ∧ 5 < l.length) :
    extractAbstract ("Abstract".data :: (b ++ ["Kata Kunci: xxx, yyy, zzz".data])) =
        some (pyStrip (collapseWs (joinWith " ".data b))) ∧
      extractKeywords ("Abstract".data :: (b ++ ["Kata Kunci: xxx, yyy, zzz".data])) =
        ["xxx".data, "yyy".data, "zzz".data] := by
  constructor
  · have hb2 : ∀ l ∈ b, reKwHeaderPrefix l = false ∧ reAbstractSep l = false ∧
        reIntro l = false ∧ 5 < l.length := by
      intro l hl
      obtain ⟨hhit, habs, hintro, hlen⟩ := hb l hl
      refine ⟨?_, habs, hintro, hlen⟩
      cases hp : reKwHeaderPrefix l with
      | false => rfl
      | true =>
        unfold kwSearchHit at hhit
        rw [hp] at hhit
        simp at hhit
    exact extractAbstract_standalone "Abstract".data "Kata Kunci: xxx, yyy, zzz".data
      b [] (by decide) hb2 hbne hblen (Or.inl (by decide))
  · show kwPostProcess (kwSectionScan
      ("Abstract".data :: (b ++ ["Kata Kunci: xxx, yyy, zzz".data]))) = _
    rw [show "Abstract".data :: (b ++ ["Kata Kunci: xxx, yyy, zzz".data]) =
        ("Abstract".data :: b) ++ ["Kata Kunci: xxx, yyy, zzz".data] from rfl]
    rw [kwSectionScan_append ("Abstract".data :: b) _ ?hall]
    · decide
    case hall =>
      intro l hl
      rcases List.mem_cons.mp hl with h | h
      · subst h; decide
      · exact (hb l h).1

/-- C4 witness: the amended theorem at a concrete document with a one-line
abstract body. -/
theorem abstract_termination_amended_witness :
    extractAbstract ("Abstract".data ::
        (["The abstract body is long enough.".data] ++
          ["Kata Kunci: xxx, yyy, zzz".data])) =
        some (pyStrip (collapseWs
          (joinWith " ".data ["The abstract body is long enough.".data]))) ∧
      extractKeywords ("Abstract".data ::
        (["The abstract body is long enough.".data] ++
          ["Kata Kunci: xxx, yyy, zzz".data])) =
        ["xxx".data, "yyy".data, "zzz".data] :=
  abstract_termination_amended ["The abstract body is long enough.".data]
    (by decide) (by decide) (by decide)

/-- A predicate for characters a harvested author name may contain:
letters and whitespace only. -/
def isNameChar (c : Char) : Bool :=
  isUpper c || isLower c || isPySpace c

/-- Name characters are neither digits, nor superscript glyphs, nor the
`@` sign. -/
theorem isNameChar_props {c : Char} (h : isNameChar c = true) :
    isDigitChar c = false ∧ isSupDigit c = false ∧ c ≠ '@' := by
  have h3 : isUpper c = true ∨ isLower c = true ∨ isPySpace c = true := by
    simpa [isNameChar, or_assoc] using h
  have hnotdig : ∀ a b : Char, a ≤ c → (a ≤ '9' → False) → isDigitChar c = false := by
    intro a b ha hcontra
    cases hd : isDigitChar c with
    | false => rfl
    | true =>
      have h9 : '0' ≤ c ∧ c ≤ '9' := by simpa [isDigitChar] using hd
      exact absurd (le_trans ha h9.2) hcontra
  have hsup : ∀ a : Char, a ≤ c → c ≤ 'z' → isSupDigit c = false := by
    intro a ha hz
    cases hs : isSupDigit c with
    | false => rfl
    | true =>
      have hd : c = '¹' ∨ c = '²' ∨ c = '³' ∨ c = '⁴' ∨ c = '⁵' ∨ c = '⁶' ∨
          c = '⁷' ∨ c = '⁸' ∨ c = '⁹' := by
        simpa [isSupDigit, or_assoc] using hs
      rcases hd with h0 | h0 | h0 | h0 | h0 | h0 | h0 | h0 | h0 <;>
        (subst h0; exact absurd hz (by decide))
  rcases h3 with h | h | h
  · have hb : 'A' ≤ c ∧ c ≤ 'Z' := by simpa [isUpper] using h
    refine ⟨hnotdig 'A' 'A' hb.1 (by decide), hsup 'A' hb.1 (le_trans hb.2 (by decide)), ?_⟩
    intro h0
    subst h0
    exact absurd hb.1 (by decide)
  · have hb : 'a' ≤ c ∧ c ≤ 'z' := by simpa [isLower] using h
    refine ⟨hnotdig 'a' 'a' hb.1 (by decide), hsup 'a' hb.1 hb.2, ?_⟩
    intro h0
    subst h0
    exact absurd hb.1 (by decide)
  · have hd : c = ' ' ∨ c = '\t' ∨ c = '\n' ∨ c = '\x0d' ∨ c = '\x0b' ∨ c = '\x0c' := by
      simpa [isPySpace, or_assoc] using h
    rcases hd with h0 | h0 | h0 | h0 | h0 | h0 <;>
      (subst h0; exact ⟨by decide, by decide, by decide⟩)

/-- Strings accepted by the name-shape tail consist of name characters. -/
theorem nameShapeTailAux_chars :
    ∀ (fuel : Nat) (l : Str), nameShapeTailAux fuel l = true →
      ∀ c ∈ l, isNameChar c = true := by
  intro fuel
  induction fuel with
  | zero =>
    intro l h c hc
    cases l with
    | nil => simp at hc
    | cons a rest => simp [nameShapeTailAux] at h
  | succ n ih =>
    intro l h c hc
    cases l with
    | nil => simp at hc
    | cons a rest =>
      simp only [nameShapeTailAux] at h
      obtain ⟨hsp, hm⟩ := Bool.and_eq_true_iff.mp h
      rcases List.mem_cons.mp hc with hc | hc
      · subst hc
        simp [isNameChar, hsp]
      · cases hd : rest.dropWhile isPySpace with
        | nil => rw [hd] at hm; simp at hm
        | cons d rest2 =>
          rw [hd] at hm
          obtain ⟨hup, htail⟩ := Bool.and_eq_true_iff.mp hm
          have hrest : rest = rest.takeWhile isPySpace ++ (d :: rest2) := by
            rw [← hd, List.takeWhile_append_dropWhile]
          rw [hrest] at hc
          rcases List.mem_append.mp hc with hc | hc
          · simp [isNameChar, List.mem_takeWhile_imp hc]
          · rcases List.mem_cons.mp hc with hc | hc
            · subst hc
              simp [isNameChar, hup]
            · have hrest2 : rest2 = rest2.takeWhile isLower ++ rest2.dropWhile isLower :=
                (List.takeWhile_append_dropWhile _ _).symm
              rw [hrest2] at hc
              rcases List.mem_append.mp hc with hc | hc
              · simp [isNameChar, List.mem_takeWhile_imp hc]
              · exact ih _ htail c hc

/-- Strings accepted by the name-shape regex consist of name characters
and start with an uppercase letter. -/
theorem nameShape_chars {l : Str} (h : nameShape l = true) :
    (∀ c ∈ l, isNameChar c = true) ∧
      (∀ c, l.head? = some c → isUpper c = true) ∧ l ≠ [] := by
  cases l with
  | nil => simp [nameShape] at h
  | cons a rest0 =>
    cases rest0 with
    | nil => simp [nameShape] at h
    | cons d rest =>
      simp only [nameShape] at h
      obtain ⟨hud, htail⟩ := Bool.and_eq_true_iff.mp h
      obtain ⟨hu, hd⟩ := Bool.and_eq_true_iff.mp hud
      refine ⟨?_, ?_, by simp⟩
      · intro c hc
        rcases List.mem_cons.mp hc with hc | hc
        · subst hc; simp [isNameChar, hu]
        · rcases List.mem_cons.mp hc with hc | hc
          · subst hc; simp [isNameChar, hd]
          · have hrest : rest = rest.takeWhile isLower ++ rest.dropWhile isLower :=
              (List.takeWhile_append_dropWhile _ _).symm
            rw [hrest] at hc
            rcases List.mem_append.mp hc with hc | hc
            · simp [isNameChar, List.mem_takeWhile_imp hc]
            · exact nameShapeTailAux_chars _ _ htail c hc
      · intro c hc
        simp only [List.head?_cons, Option.some.injEq] at hc
        subst hc
        exact hu

/-- Characters consumed by the greedy span tail are name characters. -/
theorem spanTailAux_chars :
    ∀ (fuel : Nat) (l : Str), ∀ c ∈ (spanTailAux fuel l).1, isNameChar c = true := by
  intro fuel
  induction fuel with
  | zero => intro l c hc; simp [spanTailAux] at hc
  | succ n ih =>
    intro l c hc
    cases hd : l.dropWhile isPySpace with
    | nil => simp [spanTailAux, hd] at hc
    | cons a rest0 =>
      cases rest0 with
      | nil => simp [spanTailAux, hd] at hc
      | cons d rest =>
        simp only [spanTailAux, hd] at hc
        by_cases hcond :
            (decide (l.takeWhile isPySpace ≠ []) && isUpper a && isLower d) = true
        · rw [if_pos hcond] at hc
          obtain ⟨h1, h2⟩ := Bool.and_eq_true_iff.mp hcond
          obtain ⟨h3, h4⟩ := Bool.and_eq_true_iff.mp h1
          simp only at hc
          rcases List.mem_append.mp hc with hc | hc
          · simp [isNameChar, List.mem_takeWhile_imp hc]
          · rcases List.mem_cons.mp hc with hc | hc
            · subst hc
              simp [isNameChar, h4]
            · rcases List.mem_cons.mp hc with hc | hc
              · subst hc
                simp [isNameChar, h2]
              · rcases List.mem_append.mp hc with hc | hc
                · simp [isNameChar, List.mem_takeWhile_imp hc]
                · exact ih _ c hc
        · rw [if_neg hcond] at hc
          simp at hc

/-- A matched span is non-empty, starts with an uppercase letter and
consists of name characters. -/
theorem spanAt_chars {l s r : Str} (h : spanAt l = some (s, r)) :
    s ≠ [] ∧ (∀ c, s.head? = some c → isUpper c = true) ∧
      ∀ c ∈ s, isNameChar c = true := by
  cases l with
  | nil => simp [spanAt] at h
  | cons a rest0 =>
    cases rest0 with
    | nil => simp [spanAt] at h
    | cons d rest =>
      simp only [spanAt] at h
      by_cases hcond : (isUpper a && isLower d) = true
      · rw [if_pos hcond] at h
        obtain ⟨hu, hlo⟩ := Bool.and_eq_true_iff.mp hcond
        simp only [Option.some.injEq, Prod.mk.injEq] at h
        obtain ⟨hs, -⟩ := h
        subst hs
        refine ⟨by simp, ?_, ?_⟩
        · intro c hc
          simp only [List.head?_cons, Option.some.injEq] at hc
          subst hc
          exact hu
        · intro c hc
          rcases List.mem_cons.mp hc with hc | hc
          · subst hc; simp [isNameChar, hu]
          · rcases List.mem_cons.mp hc with hc | hc
            · subst hc; simp [isNameChar, hlo]
            · rcases List.mem_append.mp hc with hc | hc
              · simp [isNameChar, List.mem_takeWhile_imp hc]
              · exact spanTailAux_chars _ _ c hc
      · rw [if_neg hcond] at h
        simp at h

/-- Every span returned by the span scan arises from a `spanAt` match. -/
theorem findSpansAux_mem :
    ∀ (fuel : Nat) (l s : Str), s ∈ findSpansAux fuel l →
      ∃ l2 r, spanAt l2 = some (s, r) := by
  intro fuel
  induction fuel with
  | zero => intro l s hs; simp [findSpansAux] at hs
  | succ n ih =>
    intro l s hs
    cases l with
    | nil => simp [findSpansAux] at hs
    | cons a rest =>
      simp only [findSpansAux] at hs
      cases hsp : spanAt (a :: rest) with
      | some p =>
        rw [hsp] at hs
        rcases List.mem_cons.mp hs with hs | hs
        · exact ⟨a :: rest, p.2, by rw [hsp, hs]⟩
        · exact ih p.2 s hs
      | none =>
        rw [hsp] at hs
        exact ih rest s hs

/-- Deduplication only keeps elements of the input list. -/
theorem dedupAux_subset :
    ∀ (l seen : List Str) (x : Str), x ∈ dedupAux seen l → x ∈ l := by
  intro l
  induction l with
  | nil => intro seen x hx; simp [dedupAux] at hx
  | cons a rest ih =>
    intro seen x hx
    simp only [dedupAux] at hx
    by_cases hmem : a ∈ seen
    · rw [if_pos hmem] at hx
      exact List.mem_cons_of_mem a (ih seen x hx)
    · rw [if_neg hmem] at hx
      rcases List.mem_cons.mp hx with hx | hx
      · exact hx ▸ List.mem_cons_self a rest
      · exact List.mem_cons_of_mem a (ih (a :: seen) x hx)

/-- Deduplicating a non-empty list with nothing seen yields a non-empty
list. -/
theorem dedupAux_nil_ne (a : Str) (rest : List Str) :
    dedupAux [] (a :: rest) ≠ [] := by
  simp [dedupAux]

/-- Taking ten of a non-empty list yields a non-empty list. -/
theorem take_ten_ne {l : List Str} (h : l ≠ []) : l.take 10 ≠ [] := by
  cases l with
  | nil => exact absurd rfl h
  | cons a rest => simp

/-- The shape every harvested author name has: non-empty, uppercase first
letter, no `@`, and no digit or superscript glyph anywhere. -/
def nameOk (n : Str) : Prop :=
  n ≠ [] ∧ (∀ c, n.head? = some c → isUpper c = true) ∧
    '@' ∉ n ∧ ∀ c ∈ n, isDigitChar c = false ∧ isSupDigit c = false

/-- A non-empty string of name characters with an uppercase head is a
well-shaped name. -/
theorem nameOk_of_chars {n : Str} (hne : n ≠ [])
    (hhead : ∀ c, n.head? = some c → isUpper c = true)
    (hchars : ∀ c ∈ n, isNameChar c = true) : nameOk n := by
  refine ⟨hne, hhead, ?_, ?_⟩
  · intro hmem
    exact (isNameChar_props (hchars '@' hmem)).2.2 rfl
  · intro c hc
    have hp := isNameChar_props (hchars c hc)
    exact ⟨hp.1, hp.2.1⟩

/-- Every result of the fallback author scan is a comma-space join of at
most ten well-shaped names. -/
theorem fallbackAux_shape :
    ∀ (fuel : Nat) (ls : List Str) (s : Str), fallbackAux fuel ls = some s →
      ∃ names : List Str, names ≠ [] ∧ names.length ≤ 10 ∧
        s = joinWith ", ".data names ∧ ∀ n ∈ names, nameOk n := by
  intro fuel
  induction fuel with
  | zero => intro ls s h; simp [fallbackAux] at h
  | succ m ih =>
    intro ls s h
    cases ls with
    | nil => simp [fallbackAux] at h
    | cons line rest =>
      simp only [fallbackAux] at h
      by_cases hcond : (startsUpperLower line && !line.contains '@') = true
      · rw [if_pos hcond] at h
        by_cases hn1 : (findSpans line).isEmpty = true
        · rw [if_pos hn1] at h; exact ih rest s h
        · rw [if_neg hn1] at h
          by_cases hn2 : ((findSpans line).filter (fun n => n.contains ' ')).isEmpty = true
          · rw [if_pos hn2] at h; exact ih rest s h
          · rw [if_neg hn2] at h
            simp only [Option.some.injEq] at h
            refine ⟨((findSpans line).filter (fun n => n.contains ' ')).take 10,
              ?_, ?_, h.symm, ?_⟩
            · apply take_ten_ne
              intro h0
              rw [h0] at hn2
              simp at hn2
            · simp [List.length_take]
            · intro n hn
              have hnf := (List.mem_filter.mp (List.take_subset 10 _ hn)).1
              obtain ⟨l2, r, hsp⟩ := findSpansAux_mem line.length line n hnf
              obtain ⟨hne, hhead, hchars⟩ := spanAt_chars hsp
              exact nameOk_of_chars hne hhead hchars
      · rw [if_neg hcond] at h
        exact ih rest s h

/-- Every name harvested from an author line is well-shaped. -/
theorem authorParts_nameOk {line n : Str} (h : n ∈ authorPartsOfLine line) :
    nameOk n := by
  simp only [authorPartsOfLine] at h
  by_cases h1 : (degreePrefix line || containsSub (pyLower line) "universitas".data) = true
  · rw [if_pos h1] at h; simp at h
  · rw [if_neg h1] at h
    by_cases h2 : line.contains '@' = true
    · rw [if_pos h2] at h; simp at h
    · rw [if_neg h2] at h
      have hf := List.mem_filter.mp h
      obtain ⟨hshape, hlen⟩ := Bool.and_eq_true_iff.mp hf.2
      obtain ⟨hchars, hhead, hne⟩ := nameShape_chars hshape
      exact nameOk_of_chars hne hhead hchars

/-- A present authors field is always a comma-space join of at most ten
well-shaped names, whichever strategy produced it. -/
theorem extractAuthors_shape {lines : List Str} {s : Str}
    (h : extractAuthors lines = some s) :
    ∃ names : List Str, names ≠ [] ∧ names.length ≤ 10 ∧
      s = joinWith ", ".data names ∧ ∀ n ∈ names, nameOk n := by
  simp only [extractAuthors] at h
  by_cases hemp : ((authorsScanAux lines 50 0).flatMap authorPartsOfLine).isEmpty = true
  · rw [if_pos hemp] at h
    exact fallbackAux_shape 60 lines s h
  · rw [if_neg hemp] at h
    simp only [Option.some.injEq] at h
    refine ⟨(dedupAux [] ((authorsScanAux lines 50 0).flatMap authorPartsOfLine)).take 10,
      ?_, ?_, h.symm, ?_⟩
    · apply take_ten_ne
      cases hl : (authorsScanAux lines 50 0).flatMap authorPartsOfLine with
      | nil => rw [hl] at hemp; simp at hemp
      | cons a rest => exact dedupAux_nil_ne a rest
    · simp [List.length_take]
    · intro n hn
      have hn2 := dedupAux_subset _ [] n (List.take_subset 10 _ hn)
      obtain ⟨line, -, hline⟩ := List.mem_flatMap.mp hn2
      exact authorParts_nameOk hline

/-- C6 (amended): whenever the authors field is present it is the
comma-space join of a non-empty list of at most ten names, each non-empty,
starting with an uppercase letter, and containing no `@`, no digit and no
superscript glyph.  The two-word minimum and the pairwise distinctness of
the original claim do not hold (see the counterexample): single-word names
pass the length filter of the primary strategy, and the fallback strategy
never deduplicates. -/
theorem authors_shape_amended (text fn : String) (s : Str)
    (h : (extract_metadata text fn).penulis = some s) :
    ∃ names : List Str, names ≠ [] ∧ names.length ≤ 10 ∧
      s = joinWith ", ".data names ∧ ∀ n ∈ names, nameOk n :=
  extractAuthors_shape h

/-- C6 witness: the amended shape at a concrete input whose authors field
is present. -/
theorem authors_shape_amended_witness :
    ∃ names : List Str, names ≠ [] ∧ names.length ≤ 10 ∧
      "Ahmad, Budi".data = joinWith ", ".data names ∧ ∀ n ∈ names, nameOk n :=
  authors_shape_amended "Ahmad1, Budi" "" "Ahmad, Budi".data (by decide)

end PDFExtractor
